import Mathlib

/-!
Verification of the hypothesis-space management engine of
`src/model/agents.py` (grid-world task-set clustering agents): the
assignment enumerator, the per-variant hypothesis populations (joint,
independent, flat, full-enumeration), belief combination, pruning, and
the orchestrator's generate loop.

Embedding conventions.  A Python dict `{context: cluster}` is an ordered
key/value list (`Dict`) preserving insertion order; `dinsert` mirrors
`d[k] = v` (update in place when the key exists, append otherwise).
Operations that can raise in Python (IndexError, KeyError, ValueError
from `max`/`np.max` on an empty collection) return `Option`, with `none`
for the raise.  Float scores (log-priors, log-likelihoods, log-beliefs)
are embedded as `ℚ`.
-/

/-- A Python dict from context id to cluster id, in insertion order. -/
abbrev Dict := List (ℕ × ℕ)

/-- `assignment.keys()`. -/
def dkeys (d : Dict) : List ℕ := d.map Prod.fst

/-- `assignment.values()`. -/
def dvalues (d : Dict) : List ℕ := d.map Prod.snd

/-- `d[k] = v` on a Python dict: overwrite the key in place when present,
append the pair otherwise. -/
def dinsert (d : Dict) (k v : ℕ) : Dict :=
  if k ∈ dkeys d then d.map (fun p => if p.1 = k then (k, v) else p)
  else d ++ [(k, v)]

/-- `d[k]` lookup; `none` is a KeyError. -/
def dget (d : Dict) (k : ℕ) : Option ℕ :=
  (d.find? (fun p => p.1 = k)).map Prod.snd

/-- `max(assignment.values())`; `none` is the ValueError Python raises on an
empty dict. -/
def dmaxValues (d : Dict) : Option ℕ :=
  match dvalues d with
  | [] => none
  | v :: vs => some (vs.foldl max v)

/-- The inner loop body of `augment_assignments` (agents.py:44-49): the list
of child assignments of one parent, one per `k in range(0, max(assignment.values()) + 2)`,
each a copy of the parent with `new_context` set to `k`. -/
def assignmentChildren (assignment : Dict) (new_context : ℕ) : Option (List Dict) :=
  (dmaxValues assignment).map (fun mx =>
    (List.range (mx + 2)).map (fun k => dinsert assignment new_context k))

/-- The outer loop of `augment_assignments` (agents.py:43-50): accumulate the
children of every parent, in input order. -/
def augmentLoop (cluster_assignments : List Dict) (new_context : ℕ) : Option (List Dict) :=
  match cluster_assignments with
  | [] => some []
  | a :: rest => do
    let children ← assignmentChildren a new_context
    let tail ← augmentLoop rest new_context
    pure (children ++ tail)

/-- `augment_assignments(cluster_assignments, new_context)` (agents.py:38-52).
The guard `(len(cluster_assignments) == 0) | (len(cluster_assignments[0]) == 0)`
evaluates both operands (`|` does not short-circuit), so an empty input list
reaches `cluster_assignments[0]` and raises IndexError (`none` here). -/
def augment_assignments (cluster_assignments : List Dict) (new_context : ℕ) :
    Option (List Dict) :=
  match cluster_assignments with
  | [] => none
  | a0 :: _ =>
    if cluster_assignments.length = 0 ∨ a0.length = 0 then
      some [[(new_context, 0)]]
    else
      augmentLoop cluster_assignments new_context

/-- `enumerate_assignments(max_context_number)` (agents.py:21-35): starting
from the single empty assignment, augment once per context number. -/
def enumerate_assignments (max_context_number : ℕ) : Option (List Dict) :=
  (List.range max_context_number).foldlM
    (fun ca contextNumber => augment_assignments ca contextNumber) [[]]

/-- Stirling numbers of the second kind, by their standard recurrence
`S(n+1, k+1) = (k+1) S(n, k+1) + S(n, k)`. -/
def stirling : ℕ → ℕ → ℕ
  | 0, 0 => 1
  | 0, _ + 1 => 0
  | _ + 1, 0 => 0
  | n + 1, k + 1 => (k + 1) * stirling n (k + 1) + stirling n k

/-- The Bell number: the number of partitions of an n-element set, as the sum
of the Stirling numbers of the second kind. -/
def bell (n : ℕ) : ℕ := ∑ k in Finset.range (n + 1), stirling n k

/-- The number of clusters a canonical assignment uses: one more than the
largest cluster index (0 for the empty assignment). -/
def numClusters (d : Dict) : ℕ :=
  match dmaxValues d with
  | none => 0
  | some m => m + 1

/-- The cluster indices of `d` form a contiguous range starting at 0: every
index below a used index is itself used. -/
def contiguousVals (d : Dict) : Prop :=
  ∀ j v, v ∈ dvalues d → j ≤ v → j ∈ dvalues d

/-- A canonical assignment over contexts `0..n-1` as the enumerator produces
them: the keys are exactly `0..n-1` in order, the cluster indices are a
contiguous range from 0, context 0 is in cluster 0, and at most `n` clusters
are used. -/
def Canon (n : ℕ) (d : Dict) : Prop :=
  dkeys d = List.range n ∧ contiguousVals d ∧
    (∀ p ∈ d, p.1 = 0 → p.2 = 0) ∧ numClusters d ≤ n

/-- How many of the assignments in `l` use exactly `j` clusters. -/
def clusterCount (l : List Dict) (j : ℕ) : ℕ :=
  l.countP (fun d => numClusters d == j)

/-! ### Generic facts about left folds of `max` (the shape of `max(...)`/`np.max`) -/

lemma foldl_max_le_iff {α} [LinearOrder α] (xs : List α) (a b : α) :
    xs.foldl max a ≤ b ↔ a ≤ b ∧ ∀ x ∈ xs, x ≤ b := by
  induction xs generalizing a with
  | nil => simp
  | cons x xs ih =>
    simp only [List.foldl_cons, ih, max_le_iff, List.mem_cons]
    constructor
    · rintro ⟨⟨h1, h2⟩, h3⟩
      exact ⟨h1, fun y hy => hy.elim (fun e => e ▸ h2) (h3 y)⟩
    · rintro ⟨h1, h2⟩
      exact ⟨⟨h1, h2 x (Or.inl rfl)⟩, fun y hy => h2 y (Or.inr hy)⟩

lemma self_le_foldl_max {α} [LinearOrder α] (xs : List α) (a : α) :
    a ≤ xs.foldl max a :=
  ((foldl_max_le_iff xs a _).mp le_rfl).1

lemma le_foldl_max_of_mem {α} [LinearOrder α] {xs : List α} {x : α} (a : α)
    (hx : x ∈ xs) : x ≤ xs.foldl max a :=
  ((foldl_max_le_iff xs a _).mp le_rfl).2 x hx

lemma foldl_max_mem {α} [LinearOrder α] (xs : List α) (a : α) :
    xs.foldl max a = a ∨ xs.foldl max a ∈ xs := by
  induction xs generalizing a with
  | nil => exact Or.inl rfl
  | cons x xs ih =>
    rw [List.foldl_cons]
    rcases ih (max a x) with h | h
    · rcases max_choice a x with hm | hm
      · exact Or.inl (h.trans hm)
      · exact Or.inr (by rw [h, hm]; exact List.mem_cons_self x xs)
    · exact Or.inr (List.mem_cons_of_mem x h)

/-! ### Facts about `dmaxValues`, `dinsert`, `dget` -/

lemma dmaxValues_eq_none_iff (d : Dict) : dmaxValues d = none ↔ d = [] := by
  cases d <;> simp [dmaxValues, dvalues]

lemma dmaxValues_isSome_of_ne_nil {d : Dict} (h : d ≠ []) :
    ∃ mx, dmaxValues d = some mx := by
  cases hm : dmaxValues d with
  | none => exact absurd ((dmaxValues_eq_none_iff d).mp hm) h
  | some mx => exact ⟨mx, rfl⟩

lemma dmaxValues_mem {d : Dict} {mx : ℕ} (h : dmaxValues d = some mx) :
    mx ∈ dvalues d := by
  unfold dmaxValues at h
  rcases hv : dvalues d with _ | ⟨v, vs⟩
  · rw [hv] at h; exact absurd h (by simp)
  · rw [hv] at h
    have hmx : vs.foldl max v = mx := by simpa using h
    rcases foldl_max_mem vs v with h1 | h1
    · rw [← hmx, h1]; exact List.mem_cons_self v vs
    · rw [← hmx]; exact List.mem_cons_of_mem v h1

lemma le_dmaxValues {d : Dict} {mx v : ℕ} (h : dmaxValues d = some mx)
    (hv : v ∈ dvalues d) : v ≤ mx := by
  unfold dmaxValues at h
  rcases hvs : dvalues d with _ | ⟨w, ws⟩
  · rw [hvs] at hv; exact absurd hv (by simp)
  · rw [hvs] at h hv
    have hmx : ws.foldl max w = mx := by simpa using h
    rcases List.mem_cons.mp hv with h1 | h1
    · rw [← hmx, h1]; exact self_le_foldl_max ws w
    · rw [← hmx]; exact le_foldl_max_of_mem w h1

lemma dinsert_of_not_mem {d : Dict} {k : ℕ} (v : ℕ) (h : k ∉ dkeys d) :
    dinsert d k v = d ++ [(k, v)] := by
  simp [dinsert, h]

lemma dinsert_of_mem {d : Dict} {k : ℕ} (v : ℕ) (h : k ∈ dkeys d) :
    dinsert d k v = d.map (fun p => if p.1 = k then (k, v) else p) := by
  simp [dinsert, h]

lemma dkeys_append (d e : Dict) : dkeys (d ++ e) = dkeys d ++ dkeys e := by
  simp [dkeys]

lemma dvalues_append (d e : Dict) : dvalues (d ++ e) = dvalues d ++ dvalues e := by
  simp [dvalues]

lemma dmaxValues_append_single (d : Dict) (c k : ℕ) (hd : d ≠ []) {mx : ℕ}
    (hmx : dmaxValues d = some mx) :
    dmaxValues (d ++ [(c, k)]) = some (max mx k) := by
  unfold dmaxValues at hmx ⊢
  rw [dvalues_append]
  rcases hvs : dvalues d with _ | ⟨v, vs⟩
  · exact absurd (List.map_eq_nil_iff.mp hvs) hd
  · rw [hvs] at hmx
    have hmx : vs.foldl max v = mx := by simpa using hmx
    simp [dvalues, List.foldl_append, hmx]

/-! ### Stirling and Bell number facts -/

lemma stirling_zero_of_lt : ∀ {n k : ℕ}, n < k → stirling n k = 0 := by
  intro n
  induction n with
  | zero => intro k hk; cases k with
    | zero => omega
    | succ kp => rfl
  | succ m ih =>
    intro k hk
    cases k with
    | zero => omega
    | succ kp =>
      have h1 : stirling m (kp + 1) = 0 := ih (by omega)
      have h2 : stirling m kp = 0 := ih (by omega)
      simp [stirling, h1, h2]

lemma stirling_self (n : ℕ) : stirling n n = 1 := by
  induction n with
  | zero => rfl
  | succ m ih =>
    have h1 : stirling m (m + 1) = 0 := stirling_zero_of_lt (by omega)
    simp [stirling, h1, ih]

lemma bell_pos (n : ℕ) : 1 ≤ bell n := by
  have hmem : n ∈ Finset.range (n + 1) := Finset.mem_range.mpr (by omega)
  calc 1 = stirling n n := (stirling_self n).symm
    _ ≤ bell n := Finset.single_le_sum (fun j _ => Nat.zero_le _) hmem

/-! ### Unfolding the enumerator's loop one step -/

lemma foldlM_option_append {α β : Type} (f : β → α → Option β) (l1 l2 : List α) (b : β) :
    (l1 ++ l2).foldlM f b = (l1.foldlM f b).bind (fun b1 => l2.foldlM f b1) := by
  induction l1 generalizing b with
  | nil => simp
  | cons x xs ih =>
    cases hfx : f b x with
    | none => simp [List.foldlM_cons, hfx]
    | some b1 => simp [List.foldlM_cons, hfx, ih]

lemma enumerate_assignments_succ (n : ℕ) :
    enumerate_assignments (n + 1) =
      (enumerate_assignments n).bind (fun ca => augment_assignments ca n) := by
  unfold enumerate_assignments
  rw [List.range_succ, foldlM_option_append]
  cases (List.range n).foldlM
      (fun ca contextNumber => augment_assignments ca contextNumber) [[]] with
  | none => rfl
  | some ca => simp [List.foldlM_cons]

/-! ### Canonicity and cluster counts are preserved by one augmentation -/

lemma Canon.ne_nil {n : ℕ} {d : Dict} (h : Canon n d) (hn : 1 ≤ n) : d ≠ [] := by
  intro he
  have h1 := h.1
  rw [he] at h1
  have h0 : List.range n = [] := by simpa [dkeys] using h1.symm
  rw [List.range_eq_nil] at h0
  omega

lemma Canon.numClusters_pos {n : ℕ} {d : Dict} (h : Canon n d) (hn : 1 ≤ n) :
    1 ≤ numClusters d := by
  obtain ⟨mx, hmx⟩ := dmaxValues_isSome_of_ne_nil (h.ne_nil hn)
  simp [numClusters, hmx]

lemma canon_extend {n : ℕ} {d : Dict} (hC : Canon n d) (hn : 1 ≤ n) {mx k : ℕ}
    (hmx : dmaxValues d = some mx) (hk : k ≤ mx + 1) : Canon (n + 1) (d ++ [(n, k)]) := by
  have hd : d ≠ [] := hC.ne_nil hn
  have hnum : numClusters d = mx + 1 := by simp [numClusters, hmx]
  have hmxn : mx + 1 ≤ n := hnum ▸ hC.2.2.2
  have hmax : dmaxValues (d ++ [(n, k)]) = some (max mx k) :=
    dmaxValues_append_single d n k hd hmx
  refine ⟨?_, ?_, ?_, ?_⟩
  · rw [dkeys_append, hC.1]
    simp [dkeys, List.range_succ]
  · intro j v hv hj
    rw [dvalues_append] at hv ⊢
    rcases List.mem_append.mp hv with h1 | h1
    · exact List.mem_append_left _ (hC.2.1 j v h1 hj)
    · have hvk : v = k := by simpa [dvalues] using h1
      by_cases hjm : j ≤ mx
      · exact List.mem_append_left _ (hC.2.1 j mx (dmaxValues_mem hmx) hjm)
      · have hjk : j = k := by omega
        rw [hjk]
        exact List.mem_append_right _ (by simp [dvalues])
  · intro p hp hp1
    rcases List.mem_append.mp hp with h1 | h1
    · exact hC.2.2.1 p h1 hp1
    · have hpk : p = (n, k) := by simpa using h1
      rw [hpk] at hp1
      omega
  · show numClusters (d ++ [(n, k)]) ≤ n + 1
    simp only [numClusters, hmax]
    omega

lemma assignmentChildren_spec {n : ℕ} {d : Dict} (hC : Canon n d) (hn : 1 ≤ n) :
    ∃ ch, assignmentChildren d n = some ch ∧
      ch = (List.range (numClusters d + 1)).map (fun k => d ++ [(n, k)]) ∧
      (∀ e ∈ ch, Canon (n + 1) e) ∧
      ∀ j, clusterCount ch j =
        (if numClusters d = j then numClusters d else 0) +
          (if numClusters d + 1 = j then 1 else 0) := by
  have hd : d ≠ [] := hC.ne_nil hn
  obtain ⟨mx, hmx⟩ := dmaxValues_isSome_of_ne_nil hd
  have hnum : numClusters d = mx + 1 := by simp [numClusters, hmx]
  have hkn : n ∉ dkeys d := by rw [hC.1]; simp
  have hins : ∀ k, dinsert d n k = d ++ [(n, k)] := fun k => dinsert_of_not_mem k hkn
  refine ⟨(List.range (mx + 2)).map (fun k => d ++ [(n, k)]), ?_, by rw [hnum], ?_, ?_⟩
  · simp only [assignmentChildren, hmx, Option.map_some]
    exact congrArg some (List.map_congr_left (fun k _ => hins k))
  · intro e he
    obtain ⟨k, hk, hke⟩ := List.mem_map.mp he
    have hkle : k ≤ mx + 1 := by have := List.mem_range.mp hk; omega
    rw [← hke]
    exact canon_extend hC hn hmx hkle
  · intro j
    rw [clusterCount, List.countP_map]
    have hfun : ∀ k ∈ List.range (mx + 2),
        ((fun e => numClusters e == j) ∘ fun k => d ++ [(n, k)]) k = true ↔
          ((max mx k + 1) == j) = true := by
      intro k _
      simp [Function.comp, numClusters, dmaxValues_append_single d n k hd hmx]
    rw [List.countP_congr hfun, show mx + 2 = (mx + 1) + 1 from rfl, List.range_succ,
      List.countP_append]
    have hleft : (List.range (mx + 1)).countP (fun k => (max mx k + 1) == j) =
        if numClusters d = j then numClusters d else 0 := by
      have hc : ∀ k ∈ List.range (mx + 1),
          ((max mx k + 1) == j) = true ↔ ((mx + 1) == j) = true := by
        intro k hk
        have hkmx : k ≤ mx := by have := List.mem_range.mp hk; omega
        rw [max_eq_left hkmx]

      rw [List.countP_congr hc]
      by_cases hj : mx + 1 = j
      · simp only [hj, beq_self_eq_true, List.countP_true, List.length_range, hnum]
        simp
      · have hb : ((mx + 1) == j) = false := by simpa using hj
        simp [hb, hnum, hj]
    have hright : List.countP (fun k => (max mx k + 1) == j) [mx + 1] =
        if numClusters d + 1 = j then 1 else 0 := by
      have hm : max mx (mx + 1) = mx + 1 := max_eq_right (by omega)
      by_cases hj : mx + 2 = j
      · simp [List.countP_cons, hm, hj, hnum]
      · have hb : ((mx + 1 + 1) == j) = false := by simpa using hj
        simp only [List.countP_cons, List.countP_nil, hm, hb, hnum]
        have : ¬ (mx + 1 + 1 = j) := hj
        simp [this]
    rw [hleft, hright]

lemma augmentLoop_spec {n : ℕ} (hn : 1 ≤ n) (l : List Dict) (hl : ∀ d ∈ l, Canon n d) :
    ∃ l', augmentLoop l n = some l' ∧ (∀ e ∈ l', Canon (n + 1) e) ∧
      ∀ j, clusterCount l' j =
        j * clusterCount l j + (match j with | 0 => 0 | jp + 1 => clusterCount l jp) := by
  induction l with
  | nil =>
    refine ⟨[], rfl, by simp, fun j => ?_⟩
    cases j <;> simp [clusterCount]
  | cons d rest ih =>
    have hCd : Canon n d := hl d (List.mem_cons_self d rest)
    obtain ⟨ch, hch, _, hchC, hchCount⟩ := assignmentChildren_spec hCd hn
    obtain ⟨l'', hl'', hC'', hcnt''⟩ := ih (fun e he => hl e (List.mem_cons_of_mem d he))
    refine ⟨ch ++ l'', ?_, ?_, ?_⟩
    · simp [augmentLoop, hch, hl'']
    · intro e he
      rcases List.mem_append.mp he with h | h
      · exact hchC e h
      · exact hC'' e h
    · intro j
      have h1 : clusterCount (ch ++ l'') j = clusterCount ch j + clusterCount l'' j :=
        List.countP_append _ _ _
      have h2 : ∀ i, clusterCount (d :: rest) i =
          clusterCount rest i + (if numClusters d = i then 1 else 0) := by
        intro i
        simp [clusterCount, List.countP_cons]
      have hpos : 1 ≤ numClusters d := hCd.numClusters_pos hn
      rw [h1, hchCount j, hcnt'' j]
      cases j with
      | zero =>
        have hz1 : ¬ (numClusters d = 0) := by omega
        have hz2 : ¬ (numClusters d + 1 = 0) := by omega
        simp [hz1, hz2]
      | succ jp =>
        have hma : (match jp + 1 with | 0 => 0 | i + 1 => clusterCount rest i) =
            clusterCount rest jp := rfl
        have hmb : (match jp + 1 with | 0 => 0 | i + 1 => clusterCount (d :: rest) i) =
            clusterCount (d :: rest) jp := rfl
        rw [hma, hmb, h2 (jp + 1), h2 jp]
        by_cases ha : numClusters d = jp + 1
        · rw [ha]
          have e1 : ¬ (jp + 1 + 1 = jp + 1) := by omega
          have e2 : ¬ (jp + 1 = jp) := by omega
          simp [e1, e2]
          ring
        · by_cases hb : numClusters d = jp
          · rw [hb]
            have e1 : ¬ (jp = jp + 1) := by omega
            simp [e1]
            ring
          · have e1 : ¬ (numClusters d + 1 = jp + 1) := by omega
            simp [if_neg ha, if_neg e1, if_neg hb]

lemma length_eq_sum_clusterCount (l : List Dict) (m : ℕ)
    (h : ∀ d ∈ l, numClusters d < m) :
    l.length = ∑ j in Finset.range m, clusterCount l j := by
  induction l with
  | nil => simp [clusterCount]
  | cons d rest ih =>
    have hd := h d (List.mem_cons_self d rest)
    have ihr := ih (fun e he => h e (List.mem_cons_of_mem d he))
    have hsplit : ∀ j, clusterCount (d :: rest) j =
        clusterCount rest j + (if numClusters d = j then 1 else 0) := by
      intro j
      simp [clusterCount, List.countP_cons]
    calc (d :: rest).length = rest.length + 1 := by simp
      _ = (∑ j in Finset.range m, clusterCount rest j) +
            (∑ j in Finset.range m, if numClusters d = j then 1 else 0) := by
          rw [← ihr, Finset.sum_ite_eq (Finset.range m) (numClusters d) (fun _ => 1),
            if_pos (Finset.mem_range.mpr hd)]
      _ = ∑ j in Finset.range m, clusterCount (d :: rest) j := by
          rw [← Finset.sum_add_distrib]
          exact Finset.sum_congr rfl (fun j _ => (hsplit j).symm)

/-- The enumerator's full invariant: `enumerate_assignments n` succeeds, its
output has Bell-number length, every output assignment is canonical over
contexts `0..n-1`, and the assignments with exactly `j` clusters number the
Stirling number `S(n, j)`. -/
lemma enumerate_spec (n : ℕ) :
    ∃ l, enumerate_assignments n = some l ∧ l.length = bell n ∧
      (∀ d ∈ l, Canon n d) ∧ ∀ j, clusterCount l j = stirling n j := by
  induction n with
  | zero =>
    refine ⟨[[]], rfl, rfl, ?_, ?_⟩
    · intro d hd
      have hde : d = [] := by simpa using hd
      subst hde
      exact ⟨rfl, fun j v hv _ => by simp [dvalues] at hv, by simp,
        by simp [numClusters, dmaxValues, dvalues]⟩
    · intro j
      cases j with
      | zero => decide
      | succ jp =>
        have h2 : (numClusters ([] : Dict) == jp + 1) = false := by
          simp [numClusters, dmaxValues, dvalues]
        simp [clusterCount, List.countP_cons, h2, stirling]
  | succ n ih =>
    obtain ⟨l, hl, hlen, hC, hcnt⟩ := ih
    rw [enumerate_assignments_succ, hl]
    simp only [Option.some_bind]
    cases n with
    | zero =>
      have hl1 : l = [[]] := by
        have h1 : l.length = 1 := by simpa [bell, stirling] using hlen
        rcases l with _ | ⟨d, rest⟩
        · exact absurd h1 (by simp)
        · have hrest : rest = [] := by
            have := h1
            simp at this
            exact this
          subst hrest
          have hd : d = [] := by
            have hk := (hC d (List.mem_cons_self d [])).1
            simpa [dkeys, List.map_eq_nil_iff] using hk
          rw [hd]
      subst hl1
      refine ⟨[[(0, 0)]], rfl, by decide, ?_, ?_⟩
      · intro d hd
        have hde : d = [(0, 0)] := by simpa using hd
        subst hde
        refine ⟨by simp [dkeys, List.range_succ], ?_, by simp, ?_⟩
        · intro j v hv hj
          have hv0 : v = 0 := by simpa [dvalues] using hv
          have hj0 : j = 0 := by omega
          simp [dvalues, hj0]
        · simp [numClusters, dmaxValues, dvalues]
      · intro j
        have hnc : numClusters [(0, 0)] = 1 := by simp [numClusters, dmaxValues, dvalues]
        match j with
        | 0 => decide
        | 1 => decide
        | jp + 2 =>
          have hz : stirling 1 (jp + 2) = 0 := stirling_zero_of_lt (by omega)
          have hne : (numClusters [(0, 0)] == jp + 2) = false := by
            rw [hnc]
            have h12 : (1 : ℕ) ≠ jp + 2 := by omega
            simp [h12]
          show List.countP (fun d => numClusters d == jp + 2) [[(0, 0)]] = stirling 1 (jp + 2)
          simp only [List.countP_cons, List.countP_nil, hne, hz]
          rfl
    | succ m =>
      have hn1 : 1 ≤ m + 1 := by omega
      have hlne : l ≠ [] := by
        intro he
        have hb := bell_pos (m + 1)
        have h0 : (0 : ℕ) = bell (m + 1) := by
          rw [← hlen, he]
          rfl
        omega
      obtain ⟨l', hloop, hC', hcnt'⟩ := augmentLoop_spec hn1 l hC
      have hstep : augment_assignments l (m + 1) = some l' := by
        rcases l with _ | ⟨a0, rest⟩
        · exact absurd rfl hlne
        · have ha0 : a0 ≠ [] := (hC a0 (List.mem_cons_self a0 rest)).ne_nil hn1
          have hguard : ¬ ((a0 :: rest).length = 0 ∨ a0.length = 0) := by
            simp [List.length_eq_zero, ha0]
          simp only [augment_assignments, if_neg hguard]
          exact hloop
      rw [hstep]
      have hstir : ∀ j, clusterCount l' j = stirling (m + 2) j := by
        intro j
        rw [hcnt' j]
        cases j with
        | zero => simp [hcnt 0, stirling]
        | succ jp =>
          have hm : (match jp + 1 with | 0 => 0 | i + 1 => clusterCount l i) =
              clusterCount l jp := rfl
          rw [hm, hcnt (jp + 1), hcnt jp]
          rfl
      refine ⟨l', rfl, ?_, hC', hstir⟩
      have hbound : ∀ e ∈ l', numClusters e < m + 3 := by
        intro e he
        have := (hC' e he).2.2.2
        omega
      rw [length_eq_sum_clusterCount l' (m + 3) hbound]
      exact Finset.sum_congr rfl (fun j _ => hstir j)

/-- In a canonical assignment over at least one context, `assignment[0]` is
cluster 0. -/
lemma Canon.dget_zero {n : ℕ} {d : Dict} (h : Canon n d) (hn : 0 < n) :
    dget d 0 = some 0 := by
  have h0 : (0 : ℕ) ∈ dkeys d := by rw [h.1]; simpa using hn
  obtain ⟨p, hp, hp1⟩ := List.mem_map.mp h0
  have hfind : (d.find? (fun q => q.1 = 0)).isSome := by
    rw [List.find?_isSome]
    exact ⟨p, hp, by simp [hp1]⟩
  obtain ⟨q, hq⟩ := Option.isSome_iff_exists.mp hfind
  have hq1 : q.1 = 0 := by simpa using List.find?_some hq
  have hq2 : q.2 = 0 := h.2.2.1 q (List.mem_of_find?_eq_some hq) hq1
  simp [dget, hq, hq2]

/-! ### The hypothesis objects and the agents' populations

The reward and mapping hypothesis objects come from the external
`cython_library` (not part of this repository's sources), so they are
modelled from the spec: each holds a context→cluster assignment and
opaque log-prior / log-likelihood scores, with log-posterior = log-prior
+ log-likelihood; `add_new_context_assignment(context, cluster)` extends
the assignment.  The numeric effect of the count-update operations and
of extending an assignment on the opaque scores is outside the model: the
agents' own code treats them as black boxes, and the claims below
quantify over the scores. -/

/-- Modelled from the spec: `cython_library.RewardHypothesis`, a black box
exposing `get_assignments`, `get_log_prior`, `get_log_likelihood`,
`get_log_posterior` (= prior + likelihood), `deep_copy` and
`add_new_context_assignment`. -/
structure RewardHypothesis where
  assignment : Dict
  logPrior : ℚ
  logLikelihood : ℚ
deriving DecidableEq

/-- Modelled from the spec: `cython_library.MappingHypothesis`, structurally
parallel to `RewardHypothesis`. -/
structure MappingHypothesis where
  assignment : Dict
  logPrior : ℚ
  logLikelihood : ℚ
deriving DecidableEq

def RewardHypothesis.get_assignments (h : RewardHypothesis) : Dict := h.assignment

def RewardHypothesis.get_log_prior (h : RewardHypothesis) : ℚ := h.logPrior

def RewardHypothesis.get_log_likelihood (h : RewardHypothesis) : ℚ := h.logLikelihood

/-- Modelled from the spec: log-posterior = log-prior + log-likelihood. -/
def RewardHypothesis.get_log_posterior (h : RewardHypothesis) : ℚ :=
  h.logPrior + h.logLikelihood

def RewardHypothesis.deep_copy (h : RewardHypothesis) : RewardHypothesis := h

/-- Modelled from the spec: `add_new_context_assignment(context, cluster)`
extends the hypothesis's assignment with the new context; the induced change
to the opaque scores is not modelled (no claim below depends on it). -/
def RewardHypothesis.add_new_context_assignment (h : RewardHypothesis) (c k : ℕ) :
    RewardHypothesis :=
  { h with assignment := dinsert h.assignment c k }

def MappingHypothesis.get_assignments (h : MappingHypothesis) : Dict := h.assignment

def MappingHypothesis.get_log_prior (h : MappingHypothesis) : ℚ := h.logPrior

def MappingHypothesis.get_log_likelihood (h : MappingHypothesis) : ℚ := h.logLikelihood

/-- Modelled from the spec: log-posterior = log-prior + log-likelihood. -/
def MappingHypothesis.get_log_posterior (h : MappingHypothesis) : ℚ :=
  h.logPrior + h.logLikelihood

def MappingHypothesis.deep_copy (h : MappingHypothesis) : MappingHypothesis := h

/-- Modelled from the spec: as for `RewardHypothesis`. -/
def MappingHypothesis.add_new_context_assignment (h : MappingHypothesis) (c k : ℕ) :
    MappingHypothesis :=
  { h with assignment := dinsert h.assignment c k }

/-- `np.max` over a log-belief array; `none` is the ValueError on an empty
population. -/
def listMax (l : List ℚ) : Option ℚ :=
  match l with
  | [] => none
  | b :: bs => some (bs.foldl max b)

/-- `for ii, x in enumerate(xs): b[ii] = x` — overwrite the first
`xs.length` entries of `b` in place; `none` is the IndexError raised when
`xs` runs past the end of `b`. -/
def overwriteLoop : List ℚ → List ℚ → Option (List ℚ)
  | b, [] => some b
  | [], _ :: _ => none
  | _ :: bs, x :: xs => (overwriteLoop bs xs).map (fun r => x :: r)

/-- `for ii, x in enumerate(xs): b[ii] += x`. -/
def addLoop : List ℚ → List ℚ → Option (List ℚ)
  | b, [] => some b
  | [], _ :: _ => none
  | b0 :: bs, x :: xs => (addLoop bs xs).map (fun r => (b0 + x) :: r)

/-- The state of the `JointClustering` agent (agents.py:355-381): one
population of (reward, mapping) hypothesis pairs sharing indices, with one
log-belief entry per pair. -/
structure JointState where
  reward_hypotheses : List RewardHypothesis
  mapping_hypotheses : List MappingHypothesis
  log_belief : List ℚ
deriving DecidableEq

/-- The module-level `augment_assignments` under a second name, so that the
agents' methods of the same name can still refer to it from inside their own
namespace. -/
def augmentAssignmentsFn : List Dict → ℕ → Option (List Dict) :=
  augment_assignments

/-- `JointClustering.update` (agents.py:393-413), after the per-hypothesis
count updates (the external mutations `h_r.update(c, sp, r)` and
`h_m.updating_mapping(c, a, aa)`, abstracted as the functions `ru`/`mu`):
three index loops over `self.log_belief`.  The first writes each mapping
hypothesis's log-prior; the second OVERWRITES it (`=`, not `+=`) with the
reward hypothesis's log-likelihood; the third adds the mapping hypothesis's
log-likelihood. -/
def JointClustering.update (ru : RewardHypothesis → RewardHypothesis)
    (mu : MappingHypothesis → MappingHypothesis) (s : JointState) :
    Option JointState := do
  let rh := s.reward_hypotheses.map ru
  let mh := s.mapping_hypotheses.map mu
  let lb0 := List.replicate mh.length (0 : ℚ)
  let lb1 ← overwriteLoop lb0 (mh.map MappingHypothesis.get_log_prior)
  let lb2 ← overwriteLoop lb1 (rh.map RewardHypothesis.get_log_likelihood)
  let lb3 ← addLoop lb2 (mh.map MappingHypothesis.get_log_likelihood)
  pure { reward_hypotheses := rh, mapping_hypotheses := mh, log_belief := lb3 }

/-- `JointClustering.augment_assignments` (agents.py:415-442): for every
(reward, mapping) pair, augment its shared assignment, clone the pair once
per child assignment, and give each child the belief
`h_r0.get_log_posterior() + h_m0.get_log_likelihood()`. -/
def JointClustering.augment_assignments (s : JointState) (context : ℕ) :
    Option JointState := do
  let triples ← (s.reward_hypotheses.zip s.mapping_hypotheses).foldlM
    (fun acc hp => do
      let new_assignments ← augmentAssignmentsFn [hp.1.get_assignments] context
      let children ← new_assignments.foldlM
        (fun acc2 assignment => do
          let k ← dget assignment context
          let h_r0 := (hp.1.deep_copy).add_new_context_assignment context k
          let h_m0 := (hp.2.deep_copy).add_new_context_assignment context k
          pure (acc2 ++ [(h_r0, h_m0, h_r0.get_log_posterior + h_m0.get_log_likelihood)]))
        []
      pure (acc ++ children))
    []
  pure { reward_hypotheses := triples.map (fun t => t.1),
         mapping_hypotheses := triples.map (fun t => t.2.1),
         log_belief := triples.map (fun t => t.2.2) }

/-- `JointClustering.prune_hypothesis_space` (agents.py:444-462).  The caller
passes `threshold`; the method compares against `np.log(threshold)`.  Since
`np.log` is strictly increasing with `log(1) = 0`, the embedding takes the
logarithm `log_threshold` as its parameter; `threshold = 1` corresponds to
`log_threshold = 0` and `threshold > 1` to `log_threshold > 0`.  A hypothesis
is kept iff `max_belief - log_b < log_threshold`.  The source indexes the two
hypothesis lists by the belief index (equal lengths are the population
invariant), embedded as filtering the zipped lists. -/
def JointClustering.prune_hypothesis_space (s : JointState) (log_threshold : ℚ) :
    Option JointState := do
  let max_belief ← listMax s.log_belief
  pure { reward_hypotheses := ((s.reward_hypotheses.zip s.log_belief).filter
           (fun p => max_belief - p.2 < log_threshold)).map Prod.fst,
         mapping_hypotheses := ((s.mapping_hypotheses.zip s.log_belief).filter
           (fun p => max_belief - p.2 < log_threshold)).map Prod.fst,
         log_belief := s.log_belief.filter (fun b => max_belief - b < log_threshold) }

/-- The state of the `IndependentClusterAgent` (agents.py:493-519): two
separate populations with their own log-belief arrays. -/
structure IndState where
  reward_hypotheses : List RewardHypothesis
  mapping_hypotheses : List MappingHypothesis
  log_belief_rew : List ℚ
  log_belief_map : List ℚ
deriving DecidableEq

/-- `IndependentClusterAgent.prune_hypothesis_space` (agents.py:591-619):
the reward population is pruned first, then the mapping population, each
against its own maximum, with the same `log_threshold` (see
`JointClustering.prune_hypothesis_space` for the log-space convention). -/
def IndependentClusterAgent.prune_hypothesis_space (s : IndState)
    (log_threshold : ℚ) : Option IndState := do
  let maxr ← listMax s.log_belief_rew
  let rh := ((s.reward_hypotheses.zip s.log_belief_rew).filter
    (fun p => maxr - p.2 < log_threshold)).map Prod.fst
  let lbr := s.log_belief_rew.filter (fun b => maxr - b < log_threshold)
  let maxm ← listMax s.log_belief_map
  let mh := ((s.mapping_hypotheses.zip s.log_belief_map).filter
    (fun p => maxm - p.2 < log_threshold)).map Prod.fst
  let lbm := s.log_belief_map.filter (fun b => maxm - b < log_threshold)
  pure ⟨rh, mh, lbr, lbm⟩

/-- The state of the `FlatControlAgent` (agents.py:652-680): a list of
task sets, each a (reward, mapping) hypothesis pair, plus the log-belief
array. -/
structure FlatState where
  task_sets : List (RewardHypothesis × MappingHypothesis)
  log_belief : List ℚ
deriving DecidableEq

/-- `FlatControlAgent.__init__` (agents.py:671-680): one task set holding a
fresh reward hypothesis and a fresh mapping hypothesis (empty assignments,
opaque initial scores), and `log_belief = np.ones(1)`. -/
def FlatControlAgent.init (rp rl mp ml : ℚ) : FlatState :=
  { task_sets := [(⟨[], rp, rl⟩, ⟨[], mp, ml⟩)], log_belief := [1] }

/-- `FlatControlAgent.update` (agents.py:694-710), after the external
per-hypothesis count updates (abstracted as `ru`/`mu`): one index loop over
`self.log_belief` storing, for each task set,
`h_m.get_log_prior() + h_m.get_log_likelihood() + h_r.get_log_likelihood()`. -/
def FlatControlAgent.update (ru : RewardHypothesis → RewardHypothesis)
    (mu : MappingHypothesis → MappingHypothesis) (s : FlatState) :
    Option FlatState := do
  let task_sets := s.task_sets.map (fun ts => (ru ts.1, mu ts.2))
  let lb ← overwriteLoop s.log_belief (task_sets.map (fun ts =>
    ts.2.get_log_prior + ts.2.get_log_likelihood + ts.1.get_log_likelihood))
  pure { task_sets := task_sets, log_belief := lb }

/-- `FlatControlAgent.prune_hypothesis_space` is inherited from
`MultiStepAgent.prune_hypothesis_space` (agents.py:117-118), a `pass`. -/
def FlatControlAgent.prune_hypothesis_space (s : FlatState) : FlatState := s

/-- `FlatControlAgent.augment_assignments` (agents.py:712-724): take
`task_sets[0]` (`none` is the IndexError on an empty list), extend both
hypotheses' assignments with `context → context`, and reset the population to
that single task set with `log_belief = [1]`. -/
def FlatControlAgent.augment_assignments (s : FlatState) (context : ℕ) :
    Option FlatState := do
  let ts ← s.task_sets.head?
  let h_m := ts.2.add_new_context_assignment context context
  let h_r := ts.1.add_new_context_assignment context context
  pure { task_sets := [(h_r, h_m)], log_belief := [1] }

/-- `MapClusteringAgent.__init__` (agents.py:771-773): the mapping
populations' assignments are the full enumeration of `n_ctx` contexts. -/
def MapClusteringAgent.map_set_assignments (n_ctx : ℕ) : Option (List Dict) :=
  enumerate_assignments n_ctx

/-- `MapClusteringAgent.__init__` (agents.py:773): the reward population's
assignments are the single dict `{ii: ii for ii in range(task.n_ctx)}`. -/
def MapClusteringAgent.set_assignments (n_ctx : ℕ) : List Dict :=
  [(List.range n_ctx).map (fun ii => (ii, ii))]

/-! ### The orchestrator's generate loop (agents.py:123-193)

The loop's interaction with the engine is modelled as a trace of events.
Each iteration sees a (trial number, context) pair from the task; the engine
calls made in that iteration are recorded in order: `prune` and `augment c`
fire only inside the first-step / first-visit guard, then the action
selection and the belief update always follow. -/

inductive Event where
  | prune : Event
  | augment : ℕ → Event
  | select : ℕ → Event
  | update : Event
deriving DecidableEq

/-- The loop counters of `MultiStepAgent.generate`: `step_counter` per trial
number and `times_seen_ctx` per context. -/
structure GenState where
  step_counter : ℕ → ℕ
  times_seen_ctx : ℕ → ℕ

/-- One iteration of the generate loop body for the observed
(trial number, context) pair: `step_counter[t] += 1`; when this is the
trial's first step, `times_seen_ctx[c] += 1`, and on the very first visit to
`c` the engine is pruned and then augmented; an action is always selected and
the experience always updates the engine. -/
def genStep (gs : GenState) (tc : ℕ × ℕ) : GenState × List Event :=
  let t := tc.1
  let c := tc.2
  let sc := fun i => if i = t then gs.step_counter i + 1 else gs.step_counter i
  if sc t = 1 then
    let ts := fun i => if i = c then gs.times_seen_ctx i + 1 else gs.times_seen_ctx i
    if ts c = 1 then
      (⟨sc, ts⟩, [Event.prune, Event.augment c, Event.select c, Event.update])
    else
      (⟨sc, ts⟩, [Event.select c, Event.update])
  else
    (⟨sc, gs.times_seen_ctx⟩, [Event.select c, Event.update])

/-- The engine-call trace of the generate loop run over a sequence of
(trial number, context) observations, from the counters in `gs`. -/
def genTraceAux (gs : GenState) : List (ℕ × ℕ) → List Event
  | [] => []
  | s :: rest =>
    let r := genStep gs s
    r.2 ++ genTraceAux r.1 rest

/-- The engine-call trace of a whole run, starting from zeroed counters. -/
def generateTrace (steps : List (ℕ × ℕ)) : List Event :=
  genTraceAux ⟨fun _ => 0, fun _ => 0⟩ steps

/-! ### Facts about `listMax` and the pruning filters -/

lemma listMax_mem {l : List ℚ} {m : ℚ} (h : listMax l = some m) : m ∈ l := by
  unfold listMax at h
  rcases l with _ | ⟨b, bs⟩
  · exact absurd h (by simp)
  · have hm : bs.foldl max b = m := by simpa using h
    rcases foldl_max_mem bs b with h1 | h1
    · rw [← hm, h1]; exact List.mem_cons_self b bs
    · rw [← hm]; exact List.mem_cons_of_mem b h1

lemma le_listMax {l : List ℚ} {m b : ℚ} (h : listMax l = some m) (hb : b ∈ l) :
    b ≤ m := by
  unfold listMax at h
  rcases l with _ | ⟨a, as⟩
  · exact absurd hb (by simp)
  · have hm : as.foldl max a = m := by simpa using h
    rcases List.mem_cons.mp hb with h1 | h1
    · rw [← hm, h1]; exact self_le_foldl_max as a
    · rw [← hm]; exact le_foldl_max_of_mem a h1

lemma listMax_isSome_of_ne_nil {l : List ℚ} (h : l ≠ []) :
    ∃ m, listMax l = some m := by
  rcases l with _ | ⟨b, bs⟩
  · exact absurd rfl h
  · exact ⟨bs.foldl max b, rfl⟩

/-- Membership in a pruned hypothesis list: a hypothesis survives iff it is
zipped with a belief within the threshold of the maximum. -/
lemma mem_prune_filter_iff {α : Type} (hyps : List α) (lb : List ℚ) (mb lt : ℚ)
    (h : α) :
    h ∈ ((hyps.zip lb).filter (fun p => mb - p.2 < lt)).map Prod.fst ↔
      ∃ b, (h, b) ∈ hyps.zip lb ∧ mb - b < lt := by
  constructor
  · intro hm
    obtain ⟨q, hq, hq1⟩ := List.mem_map.mp hm
    obtain ⟨hqz, hqp⟩ := List.mem_filter.mp hq
    refine ⟨q.2, ?_, by simpa using hqp⟩
    rw [← hq1]
    simpa using hqz
  · rintro ⟨b, hzb, hp⟩
    exact List.mem_map.mpr ⟨(h, b), List.mem_filter.mpr ⟨hzb, by simpa using hp⟩, rfl⟩

lemma mem_prune_beliefs_iff (lb : List ℚ) (mb lt b : ℚ) :
    b ∈ lb.filter (fun x => mb - x < lt) ↔ b ∈ lb ∧ mb - b < lt := by
  rw [List.mem_filter]
  simp

/-! ### Concrete hypothesis objects used in counterexamples and witnesses -/

def rhA : RewardHypothesis := ⟨[(0, 0)], 0, 0⟩

def rhB : RewardHypothesis := ⟨[(0, 1)], 0, 0⟩

def mhA : MappingHypothesis := ⟨[(0, 0)], 0, 0⟩

def mhB : MappingHypothesis := ⟨[(0, 1)], 0, 0⟩

/-- C3, counterexample.  At threshold exactly 1 (`np.log(1.0) = 0.0`, so
`log_threshold = 0`), a non-empty population is pruned to empty in both the
joint-clustering and the independent-clustering agent: the maximum-belief
hypothesis itself fails the strict test `max_belief - log_b < log_threshold`. -/
theorem prune_threshold_one_empties_population :
    JointClustering.prune_hypothesis_space ⟨[rhA], [mhA], [0]⟩ 0 =
      some ⟨[], [], []⟩ ∧
    IndependentClusterAgent.prune_hypothesis_space ⟨[rhA], [mhA], [0], [0]⟩ 0 =
      some ⟨[], [], [], []⟩ := by
  have h : ¬ ((0 : ℚ) - 0 < 0) := by norm_num
  constructor
  · simp [JointClustering.prune_hypothesis_space, listMax, List.filter, h]
  · simp [IndependentClusterAgent.prune_hypothesis_space, listMax, List.filter, h]

/-- C3 (amended: threshold strictly greater than 1, i.e. `log_threshold > 0`).
For every non-empty population, pruning leaves the population non-empty, keeps
the maximum log-belief, and retains every hypothesis paired with the maximum
log-belief — in the joint-clustering agent and in both populations of the
independent-clustering agent. -/
theorem prune_retains_max_hypothesis :
    (∀ (s : JointState) (lt : ℚ), 0 < lt → ∀ mb, listMax s.log_belief = some mb →
      ∃ s', JointClustering.prune_hypothesis_space s lt = some s' ∧
        s'.log_belief ≠ [] ∧ mb ∈ s'.log_belief ∧
        (∀ p ∈ s.reward_hypotheses.zip s.log_belief, p.2 = mb →
          p.1 ∈ s'.reward_hypotheses) ∧
        (∀ p ∈ s.mapping_hypotheses.zip s.log_belief, p.2 = mb →
          p.1 ∈ s'.mapping_hypotheses)) ∧
    (∀ (s : IndState) (lt : ℚ), 0 < lt → ∀ mr mm,
      listMax s.log_belief_rew = some mr → listMax s.log_belief_map = some mm →
      ∃ s', IndependentClusterAgent.prune_hypothesis_space s lt = some s' ∧
        s'.log_belief_rew ≠ [] ∧ s'.log_belief_map ≠ [] ∧
        mr ∈ s'.log_belief_rew ∧ mm ∈ s'.log_belief_map ∧
        (∀ p ∈ s.reward_hypotheses.zip s.log_belief_rew, p.2 = mr →
          p.1 ∈ s'.reward_hypotheses) ∧
        (∀ p ∈ s.mapping_hypotheses.zip s.log_belief_map, p.2 = mm →
          p.1 ∈ s'.mapping_hypotheses)) := by
  constructor
  · intro s lt hlt mb hmb
    refine ⟨⟨((s.reward_hypotheses.zip s.log_belief).filter
          (fun p => mb - p.2 < lt)).map Prod.fst,
        ((s.mapping_hypotheses.zip s.log_belief).filter
          (fun p => mb - p.2 < lt)).map Prod.fst,
        s.log_belief.filter (fun b => mb - b < lt)⟩,
        by simp [JointClustering.prune_hypothesis_space, hmb], ?_, ?_, ?_, ?_⟩
    · exact List.ne_nil_of_mem
        ((mem_prune_beliefs_iff _ _ _ _).mpr ⟨listMax_mem hmb, by simpa using hlt⟩)
    · exact (mem_prune_beliefs_iff _ _ _ _).mpr ⟨listMax_mem hmb, by simpa using hlt⟩
    · intro p hp hpmb
      refine (mem_prune_filter_iff _ _ _ _ _).mpr ⟨p.2, by simpa using hp, ?_⟩
      rw [hpmb]
      simpa using hlt
    · intro p hp hpmb
      refine (mem_prune_filter_iff _ _ _ _ _).mpr ⟨p.2, by simpa using hp, ?_⟩
      rw [hpmb]
      simpa using hlt
  · intro s lt hlt mr mm hmr hmm
    refine ⟨⟨((s.reward_hypotheses.zip s.log_belief_rew).filter
          (fun p => mr - p.2 < lt)).map Prod.fst,
        ((s.mapping_hypotheses.zip s.log_belief_map).filter
          (fun p => mm - p.2 < lt)).map Prod.fst,
        s.log_belief_rew.filter (fun b => mr - b < lt),
        s.log_belief_map.filter (fun b => mm - b < lt)⟩,
        by simp [IndependentClusterAgent.prune_hypothesis_space, hmr, hmm],
      ?_, ?_, ?_, ?_, ?_, ?_⟩
    · exact List.ne_nil_of_mem
        ((mem_prune_beliefs_iff _ _ _ _).mpr ⟨listMax_mem hmr, by simpa using hlt⟩)
    · exact List.ne_nil_of_mem
        ((mem_prune_beliefs_iff _ _ _ _).mpr ⟨listMax_mem hmm, by simpa using hlt⟩)
    · exact (mem_prune_beliefs_iff _ _ _ _).mpr ⟨listMax_mem hmr, by simpa using hlt⟩
    · exact (mem_prune_beliefs_iff _ _ _ _).mpr ⟨listMax_mem hmm, by simpa using hlt⟩
    · intro p hp hpmb
      refine (mem_prune_filter_iff _ _ _ _ _).mpr ⟨p.2, by simpa using hp, ?_⟩
      rw [hpmb]
      simpa using hlt
    · intro p hp hpmb
      refine (mem_prune_filter_iff _ _ _ _ _).mpr ⟨p.2, by simpa using hp, ?_⟩
      rw [hpmb]
      simpa using hlt

/-- C3, witness: the amended theorem applied to concrete one-element
populations at `log_threshold = 1` (threshold `e`). -/
theorem prune_retains_max_hypothesis_witness :
    ∃ s', JointClustering.prune_hypothesis_space ⟨[rhA], [mhA], [0]⟩ 1 = some s' ∧
      s'.log_belief ≠ [] ∧ (0 : ℚ) ∈ s'.log_belief := by
  obtain ⟨s', h1, h2, h3, _⟩ :=
    prune_retains_max_hypothesis.1 ⟨[rhA], [mhA], [0]⟩ 1 (by norm_num) 0 (by decide)
  exact ⟨s', h1, h2, h3⟩

/-- C5, counterexample.  A hypothesis whose log-belief is exactly
`log(threshold)` below the maximum is removed, not retained: with
`log_threshold = 1` and beliefs `[0, -1]`, the second pair (at distance
exactly 1 from the maximum 0) is pruned in both agents. -/
theorem prune_boundary_hypothesis_removed :
    JointClustering.prune_hypothesis_space ⟨[rhA, rhB], [mhA, mhB], [0, -1]⟩ 1 =
      some ⟨[rhA], [mhA], [0]⟩ ∧
    IndependentClusterAgent.prune_hypothesis_space
        ⟨[rhA, rhB], [mhA, mhB], [0, -1], [0, -1]⟩ 1 =
      some ⟨[rhA], [mhA], [0], [0]⟩ ∧
    (0 : ℚ) - (-1) = 1 := by
  have hmax : listMax [(0 : ℚ), -1] = some 0 := by
    have hm : max (0 : ℚ) (-1) = 0 := max_eq_left (by norm_num)
    simp [listMax, hm]
  have b0 : (decide ((0 : ℚ) - 0 < 1)) = true := by
    rw [decide_eq_true_eq]
    norm_num
  have b1 : (decide ((0 : ℚ) - (-1) < 1)) = false := by
    rw [decide_eq_false_iff_not]
    norm_num
  refine ⟨?_, ?_, by norm_num⟩
  · simp [JointClustering.prune_hypothesis_space, hmax, List.filter, b0, b1]
  · simp [IndependentClusterAgent.prune_hypothesis_space, hmax, List.filter, b0, b1]

/-- C5 (amended: a hypothesis is removed exactly when its log-belief falls
`log(threshold)` OR MORE below the maximum — equivalently, kept exactly when
strictly within `log(threshold)` of the maximum; the boundary case is
removed).  Characterizes the surviving beliefs and hypotheses of both
agents. -/
theorem prune_removes_iff_not_within_log_threshold :
    (∀ (s : JointState) (lt mb : ℚ), listMax s.log_belief = some mb →
      s.reward_hypotheses.length = s.log_belief.length →
      s.mapping_hypotheses.length = s.log_belief.length →
      ∃ s', JointClustering.prune_hypothesis_space s lt = some s' ∧
        (∀ b, b ∈ s'.log_belief ↔ b ∈ s.log_belief ∧ mb - b < lt) ∧
        (∀ h, h ∈ s'.reward_hypotheses ↔
          ∃ b, (h, b) ∈ s.reward_hypotheses.zip s.log_belief ∧ mb - b < lt) ∧
        (∀ h, h ∈ s'.mapping_hypotheses ↔
          ∃ b, (h, b) ∈ s.mapping_hypotheses.zip s.log_belief ∧ mb - b < lt) ∧
        (∀ b, b ∈ s.log_belief → mb - b = lt → b ∉ s'.log_belief)) ∧
    (∀ (s : IndState) (lt mr mm : ℚ), listMax s.log_belief_rew = some mr →
      listMax s.log_belief_map = some mm →
      ∃ s', IndependentClusterAgent.prune_hypothesis_space s lt = some s' ∧
        (∀ b, b ∈ s'.log_belief_rew ↔ b ∈ s.log_belief_rew ∧ mr - b < lt) ∧
        (∀ b, b ∈ s'.log_belief_map ↔ b ∈ s.log_belief_map ∧ mm - b < lt) ∧
        (∀ h, h ∈ s'.reward_hypotheses ↔
          ∃ b, (h, b) ∈ s.reward_hypotheses.zip s.log_belief_rew ∧ mr - b < lt) ∧
        (∀ h, h ∈ s'.mapping_hypotheses ↔
          ∃ b, (h, b) ∈ s.mapping_hypotheses.zip s.log_belief_map ∧ mm - b < lt) ∧
        (∀ b, b ∈ s.log_belief_rew → mr - b = lt → b ∉ s'.log_belief_rew)) := by
  constructor
  · intro s lt mb hmb _ _
    have hps : JointClustering.prune_hypothesis_space s lt =
        some ⟨((s.reward_hypotheses.zip s.log_belief).filter
            (fun p => mb - p.2 < lt)).map Prod.fst,
          ((s.mapping_hypotheses.zip s.log_belief).filter
            (fun p => mb - p.2 < lt)).map Prod.fst,
          s.log_belief.filter (fun b => mb - b < lt)⟩ := by
      unfold JointClustering.prune_hypothesis_space
      rw [hmb]
      rfl
    refine ⟨_, hps, ?_, ?_, ?_, ?_⟩
    · exact fun b => mem_prune_beliefs_iff s.log_belief mb lt b
    · exact fun h => mem_prune_filter_iff s.reward_hypotheses s.log_belief mb lt h
    · exact fun h => mem_prune_filter_iff s.mapping_hypotheses s.log_belief mb lt h
    · intro b _ hbd hmem
      have hlt := ((mem_prune_beliefs_iff s.log_belief mb lt b).mp hmem).2
      rw [hbd] at hlt
      exact lt_irrefl lt hlt
  · intro s lt mr mm hmr hmm
    have hps : IndependentClusterAgent.prune_hypothesis_space s lt =
        some ⟨((s.reward_hypotheses.zip s.log_belief_rew).filter
            (fun p => mr - p.2 < lt)).map Prod.fst,
          ((s.mapping_hypotheses.zip s.log_belief_map).filter
            (fun p => mm - p.2 < lt)).map Prod.fst,
          s.log_belief_rew.filter (fun b => mr - b < lt),
          s.log_belief_map.filter (fun b => mm - b < lt)⟩ := by
      unfold IndependentClusterAgent.prune_hypothesis_space
      rw [hmr, hmm]
      rfl
    refine ⟨_, hps, ?_, ?_, ?_, ?_, ?_⟩
    · exact fun b => mem_prune_beliefs_iff s.log_belief_rew mr lt b
    · exact fun b => mem_prune_beliefs_iff s.log_belief_map mm lt b
    · exact fun h => mem_prune_filter_iff s.reward_hypotheses s.log_belief_rew mr lt h
    · exact fun h => mem_prune_filter_iff s.mapping_hypotheses s.log_belief_map mm lt h
    · intro b _ hbd hmem
      have hlt := ((mem_prune_beliefs_iff s.log_belief_rew mr lt b).mp hmem).2
      rw [hbd] at hlt
      exact lt_irrefl lt hlt

/-- C5, witness: the amended characterization applied to a concrete
two-hypothesis joint population with beliefs `[0, -2]` at `log_threshold = 1`:
the survivor set is exactly the pair with belief 0. -/
theorem prune_removes_iff_witness :
    ∃ s', JointClustering.prune_hypothesis_space
        ⟨[rhA, rhB], [mhA, mhB], [0, -2]⟩ 1 = some s' ∧
      ((0 : ℚ) ∈ s'.log_belief ↔ (0 : ℚ) ∈ ([0, -2] : List ℚ) ∧ (0 : ℚ) - 0 < 1) ∧
      (rhB ∈ s'.reward_hypotheses ↔
        ∃ b, (rhB, b) ∈ [rhA, rhB].zip ([0, -2] : List ℚ) ∧ (0 : ℚ) - b < 1) := by
  obtain ⟨s', h1, h2, h3, _, _⟩ :=
    prune_removes_iff_not_within_log_threshold.1 ⟨[rhA, rhB], [mhA, mhB], [0, -2]⟩ 1 0
      (by
        have hm : max (0 : ℚ) (-2) = 0 := max_eq_left (by norm_num)
        simp [listMax, hm]) rfl rfl
  exact ⟨s', h1, h2 0, h3 rhB⟩

/-! ### C1: the joint agent's stored belief after `update` -/

def c1Reward : RewardHypothesis := ⟨[(0, 0)], -1, 0⟩

def c1Mapping : MappingHypothesis := ⟨[(0, 0)], -1, 0⟩

def c1State : JointState := ⟨[c1Reward], [c1Mapping], [5]⟩

/-- C1 (code bug).  After `update`, the stored log-belief is the reward
log-LIKELIHOOD plus the mapping log-likelihood: the second loop's
`self.log_belief[ii] = h_r.get_log_likelihood()` overwrites (with `=`, not
`+=`) the value written by the first loop, so the log-prior never enters.  On
a pair with reward log-prior `-1` and both log-likelihoods `0` (count updates
abstracted as the identity), `update` stores `[0]`, while the claimed
combination — reward log-posterior + mapping log-likelihood, the very value
`augment_assignments` assigns to children of this same state — is `-1`. -/
theorem joint_update_drops_reward_log_prior :
    JointClustering.update id id c1State = some ⟨[c1Reward], [c1Mapping], [0]⟩ ∧
    c1Reward.get_log_likelihood + c1Mapping.get_log_likelihood = 0 ∧
    c1Reward.get_log_posterior + c1Mapping.get_log_likelihood = -1 ∧
    (JointClustering.augment_assignments c1State 1).map JointState.log_belief =
      some [-1, -1] := by
  refine ⟨?_, by norm_num [RewardHypothesis.get_log_likelihood,
      MappingHypothesis.get_log_likelihood, c1Reward, c1Mapping],
    by norm_num [RewardHypothesis.get_log_posterior,
      MappingHypothesis.get_log_likelihood, c1Reward, c1Mapping], ?_⟩
  · norm_num [JointClustering.update, c1State, c1Reward, c1Mapping,
      overwriteLoop, addLoop, MappingHypothesis.get_log_prior,
      RewardHypothesis.get_log_likelihood, MappingHypothesis.get_log_likelihood]
  · have haug : augment_assignments [[(0, 0)]] 1 =
        some [[(0, 0), (1, 0)], [(0, 0), (1, 1)]] := by decide
    have hg0 : dget [(0, 0), (1, 0)] 1 = some 0 := by decide
    have hg1 : dget [(0, 0), (1, 1)] 1 = some 1 := by decide
    simp only [JointClustering.augment_assignments, c1State, c1Reward, c1Mapping,
      augmentAssignmentsFn, RewardHypothesis.get_assignments,
      RewardHypothesis.deep_copy, MappingHypothesis.deep_copy,
      RewardHypothesis.add_new_context_assignment,
      MappingHypothesis.add_new_context_assignment,
      RewardHypothesis.get_log_posterior, MappingHypothesis.get_log_likelihood,
      List.zip_cons_cons, List.zip_nil_right, List.foldlM_cons, List.foldlM_nil,
      haug, hg0, hg1, Option.some_bind, Option.map_some, List.nil_append,
      List.map_cons, List.map_nil, List.cons_append, Option.bind_eq_bind]
    norm_num

/-! ### C6, C4, C10: the incremental enumerator on a single parent -/

lemma toFinset_dvalues_eq_range {d : Dict} {mx : ℕ} (h1 : contiguousVals d)
    (hmx : dmaxValues d = some mx) :
    (dvalues d).toFinset = Finset.range (mx + 1) := by
  ext j
  simp only [List.mem_toFinset, Finset.mem_range]
  constructor
  · intro hj
    exact Nat.lt_succ_of_le (le_dmaxValues hmx hj)
  · intro hj
    exact h1 j mx (dmaxValues_mem hmx) (by omega)

lemma augment_assignments_single {d : Dict} (c : ℕ) {mx : ℕ}
    (hmx : dmaxValues d = some mx) :
    augment_assignments [d] c =
      some ((List.range (mx + 2)).map (fun k => dinsert d c k)) := by
  have hd : d ≠ [] := by
    intro he
    rw [he] at hmx
    exact absurd ((dmaxValues_eq_none_iff []).mpr rfl) (by simp [hmx])
  have hguard : ¬ (([d].length = 0) ∨ (d.length = 0)) := by
    simp [List.length_eq_zero, hd]
  rcases d with _ | ⟨p0, rest⟩
  · exact absurd rfl hd
  · simp only [augment_assignments, if_neg hguard, augmentLoop, assignmentChildren,
      hmx, Option.map_some, Option.some_bind, Option.bind_eq_bind, List.append_nil]
    rfl

/-- C6.  Augmenting a single canonical parent assignment (contiguous cluster
indices) with a context not yet assigned yields exactly (number of distinct
clusters) + 1 children, each the parent extended — in place, agreeing with
the parent on every original context — with the new context in cluster
`k`, for `k` ranging over the existing clusters plus one brand-new cluster. -/
theorem augment_assignments_children_of_fresh_context (d : Dict) (c : ℕ)
    (h1 : contiguousVals d) (h2 : c ∉ dkeys d) :
    augment_assignments [d] c =
      some ((List.range ((dvalues d).toFinset.card + 1)).map
        (fun k => d ++ [(c, k)])) := by
  rcases eq_or_ne d [] with hd | hd
  · subst hd
    rfl
  · obtain ⟨mx, hmx⟩ := dmaxValues_isSome_of_ne_nil hd
    rw [augment_assignments_single c hmx, toFinset_dvalues_eq_range h1 hmx,
      Finset.card_range]
    exact congrArg some (List.map_congr_left (fun k _ => dinsert_of_not_mem k h2))

/-- C6, witness: a canonical parent with 2 distinct clusters over 3 contexts
and fresh context 3 yields exactly 3 children, each a strict extension. -/
theorem augment_assignments_children_witness :
    augment_assignments [[(0, 0), (1, 1), (2, 0)]] 3 =
      some [[(0, 0), (1, 1), (2, 0), (3, 0)], [(0, 0), (1, 1), (2, 0), (3, 1)],
        [(0, 0), (1, 1), (2, 0), (3, 2)]] := by
  have h1 : contiguousVals [(0, 0), (1, 1), (2, 0)] := by
    intro j v hv hj
    simp [dvalues] at hv ⊢
    omega
  have h2 : (3 : ℕ) ∉ dkeys [(0, 0), (1, 1), (2, 0)] := by decide
  rw [augment_assignments_children_of_fresh_context _ _ h1 h2]
  decide

/-- C4, counterexample.  Augmenting with a context the parent assignment
already contains raises no error: it succeeds and silently overwrites the
context's cluster — the parent maps context 1 to cluster 1, yet the first
child maps it to cluster 0. -/
theorem augment_assignments_silent_overwrite_cex :
    augment_assignments [[(0, 0), (1, 1)]] 1 =
      some [[(0, 0), (1, 0)], [(0, 0), (1, 1)], [(0, 0), (1, 2)]] ∧
    dget [(0, 0), (1, 1)] 1 = some 1 ∧ dget [(0, 0), (1, 0)] 1 = some 0 := by
  decide

/-- C4 (amended).  `augment_assignments` performs no precondition check: given
a context already present in the parent assignment, it succeeds and returns
one child per `k in range(max + 2)`, each the parent with the existing
context's cluster silently overwritten in place by `k`. -/
theorem augment_assignments_overwrites_assigned_context (d : Dict) (c mx : ℕ)
    (hc : c ∈ dkeys d) (hmx : dmaxValues d = some mx) :
    augment_assignments [d] c =
      some ((List.range (mx + 2)).map
        (fun k => d.map (fun p => if p.1 = c then (c, k) else p))) := by
  rw [augment_assignments_single c hmx]
  exact congrArg some (List.map_congr_left (fun k _ => dinsert_of_mem k hc))

/-- C4, witness: overwriting context 0 (canonically in cluster 0) of a parent
with maximum cluster index 1 yields 3 children, each reassigning context 0 in
place. -/
theorem augment_assignments_overwrites_witness :
    augment_assignments [[(0, 0), (1, 0), (2, 1)]] 0 =
      some [[(0, 0), (1, 0), (2, 1)], [(0, 1), (1, 0), (2, 1)],
        [(0, 2), (1, 0), (2, 1)]] := by
  rw [augment_assignments_overwrites_assigned_context [(0, 0), (1, 0), (2, 1)] 0 1
    (by decide) (by decide)]
  decide

/-- C10.  Called on an empty assignment list, `augment_assignments` raises
(IndexError: the guard `(len(ca) == 0) | (len(ca[0]) == 0)` evaluates
`ca[0]` because `|` does not short-circuit) rather than returning
`[{new_context: 0}]`; that singleton result is returned exactly via the guard
branch, so whenever it is returned the input list holds an empty assignment. -/
theorem augment_assignments_empty_input_errors :
    (∀ c, augment_assignments [] c = none) ∧
    (∀ c, augment_assignments [[]] c = some [[(c, 0)]]) ∧
    (∀ (ca : List Dict) (c : ℕ), augment_assignments ca c = some [[(c, 0)]] →
      [] ∈ ca) := by
  refine ⟨fun c => rfl, fun c => rfl, ?_⟩
  intro ca c h
  rcases ca with _ | ⟨a0, rest⟩
  · exact absurd h (by simp [augment_assignments])
  · by_cases ha : a0.length = 0
    · rw [List.length_eq_zero] at ha
      rw [ha]
      exact List.mem_cons_self [] rest
    · have hguard : ¬ (((a0 :: rest).length = 0) ∨ (a0.length = 0)) := by
        simp [ha]
      rw [show augment_assignments (a0 :: rest) c =
          (if ((a0 :: rest).length = 0) ∨ (a0.length = 0) then some [[(c, 0)]]
            else augmentLoop (a0 :: rest) c) from rfl, if_neg hguard] at h
      have ha0 : a0 ≠ [] := fun he => ha (by rw [he]; rfl)
      obtain ⟨mx, hmx⟩ := dmaxValues_isSome_of_ne_nil ha0
      rw [show augmentLoop (a0 :: rest) c =
          (assignmentChildren a0 c).bind (fun children =>
            (augmentLoop rest c).bind (fun tail => some (children ++ tail)))
          from rfl] at h
      rw [show assignmentChildren a0 c =
          some ((List.range (mx + 2)).map (fun k => dinsert a0 c k)) by
        simp [assignmentChildren, hmx]] at h
      rcases htail : augmentLoop rest c with _ | tail
      · rw [htail] at h
        exact absurd h (by simp)
      · rw [htail] at h
        have hlen := congrArg List.length (Option.some_injective _ (by simpa using h))
        simp [List.length_append] at hlen
        omega

/-- C10, witness: the "only via the guard" direction applied to an input whose
first assignment is empty but which is not the one-element list `[{}]`. -/
theorem augment_assignments_empty_input_witness :
    augment_assignments [[], [(0, 0)]] 7 = some [[(7, 0)]] ∧
    [] ∈ [([] : Dict), [(0, 0)]] :=
  ⟨by decide, augment_assignments_empty_input_errors.2.2 [[], [(0, 0)]] 7 (by decide)⟩

/-- C7.  Full enumeration of N contexts succeeds and produces exactly the
Bell number `B(N)` of assignments; every returned assignment maps context 0
to cluster 0 (when N ≥ 1) and uses a contiguous range of cluster indices
starting at 0; for N = 0 and N = 1 the output is the single trivial
assignment. -/
theorem enumerate_assignments_bell_canonical :
    (∀ n, ∃ l, enumerate_assignments n = some l ∧ l.length = bell n ∧
      ∀ d ∈ l, (0 < n → dget d 0 = some 0) ∧ contiguousVals d) ∧
    enumerate_assignments 0 = some [[]] ∧
    enumerate_assignments 1 = some [[(0, 0)]] := by
  refine ⟨?_, by decide, by decide⟩
  intro n
  obtain ⟨l, hl, hlen, hC, _⟩ := enumerate_spec n
  exact ⟨l, hl, hlen, fun d hd =>
    ⟨fun hn => (hC d hd).dget_zero hn, (hC d hd).2.1⟩⟩

/-- C7, witness: the enumeration of 3 contexts, evaluated. -/
theorem enumerate_assignments_bell_canonical_witness :
    (∃ l, enumerate_assignments 3 = some l ∧ l.length = bell 3 ∧
      ∀ d ∈ l, (0 < 3 → dget d 0 = some 0) ∧ contiguousVals d) ∧
    enumerate_assignments 3 =
      some [[(0, 0), (1, 0), (2, 0)], [(0, 0), (1, 0), (2, 1)],
        [(0, 0), (1, 1), (2, 0)], [(0, 0), (1, 1), (2, 1)],
        [(0, 0), (1, 1), (2, 2)]] :=
  ⟨enumerate_assignments_bell_canonical.1 3, by decide⟩

/-- C2, counterexample.  At construction with 2 contexts, the reward
population's seed (`set_assignments`, agents.py:773) is the single identity
assignment, not the full enumeration: it has 1 member while there are
`B(2) = 2` canonical partitions (which do seed the mapping population). -/
theorem mapclustering_reward_population_not_enumerated :
    MapClusteringAgent.set_assignments 2 = [[(0, 0), (1, 1)]] ∧
    MapClusteringAgent.map_set_assignments 2 =
      some [[(0, 0), (1, 0)], [(0, 0), (1, 1)]] ∧
    bell 2 = 2 ∧
    (MapClusteringAgent.set_assignments 2).length ≠ bell 2 := by decide

/-- C2 (amended).  At construction, the full-enumeration agent seeds only the
MAPPING population with one hypothesis per valid canonical partition of the
task's context count (all Bell-number many, up front); the reward population
is seeded with exactly one hypothesis, whose assignment maps each context to
its own cluster. -/
theorem mapclustering_seeding_spec (n_ctx : ℕ) :
    (∃ l, MapClusteringAgent.map_set_assignments n_ctx = some l ∧
      l.length = bell n_ctx ∧ ∀ d ∈ l, Canon n_ctx d) ∧
    MapClusteringAgent.set_assignments n_ctx =
      [(List.range n_ctx).map (fun ii => (ii, ii))] ∧
    (MapClusteringAgent.set_assignments n_ctx).length = 1 := by
  obtain ⟨l, hl, hlen, hC, _⟩ := enumerate_spec n_ctx
  exact ⟨⟨l, hl, hlen, hC⟩, rfl, rfl⟩

/-! ### C9: the flat agent's population -/

lemma overwriteLoop_spec (b xs : List ℚ) (h : xs.length ≤ b.length) :
    ∃ r, overwriteLoop b xs = some r ∧ r.length = b.length := by
  induction xs generalizing b with
  | nil => exact ⟨b, by cases b <;> rfl, rfl⟩
  | cons x xs ih =>
    cases b with
    | nil => simp at h
    | cons b0 bs =>
      obtain ⟨r, hr, hlen⟩ := ih bs (by simpa using h)
      exact ⟨x :: r, by simp [overwriteLoop, hr], by simp [hlen]⟩

/-- C9.  The flat agent's population has size exactly 1 after every
operation: construction seeds one task set with belief `[1]`; update maps the
single pair and rewrites the single belief entry; pruning is a no-op;
augmentation reads `task_sets[0]` and rebuilds a one-element population, with
the new context `c` assigned to cluster `c` in both hypotheses — its own
singleton cluster (no other context occupies cluster `c` when `c` is new). -/
theorem flat_population_size_one :
    (∀ rp rl mp ml : ℚ, (FlatControlAgent.init rp rl mp ml).task_sets.length = 1 ∧
      (FlatControlAgent.init rp rl mp ml).log_belief = [1]) ∧
    (∀ ru mu (s : FlatState), s.task_sets.length = 1 → s.log_belief.length = 1 →
      ∃ s', FlatControlAgent.update ru mu s = some s' ∧
        s'.task_sets.length = 1 ∧ s'.log_belief.length = 1) ∧
    (∀ s : FlatState, FlatControlAgent.prune_hypothesis_space s = s) ∧
    (∀ (s : FlatState) r m (c : ℕ), s.task_sets = [(r, m)] →
      FlatControlAgent.augment_assignments s c =
        some ⟨[(r.add_new_context_assignment c c,
          m.add_new_context_assignment c c)], [1]⟩) ∧
    (∀ (r : RewardHypothesis) (c : ℕ), c ∉ dkeys r.assignment →
      (r.add_new_context_assignment c c).assignment = r.assignment ++ [(c, c)]) ∧
    (∀ (r : RewardHypothesis) (c : ℕ), c ∉ dkeys r.assignment →
      c ∉ dvalues r.assignment →
      (dvalues (r.add_new_context_assignment c c).assignment).count c = 1) ∧
    (∀ (m : MappingHypothesis) (c : ℕ), c ∉ dkeys m.assignment →
      c ∉ dvalues m.assignment →
      (dvalues (m.add_new_context_assignment c c).assignment).count c = 1) := by
  refine ⟨fun rp rl mp ml => ⟨rfl, rfl⟩, ?_, fun s => rfl, ?_, ?_, ?_, ?_⟩
  · intro ru mu s h1 h2
    obtain ⟨r, hr, hlen⟩ := overwriteLoop_spec s.log_belief
      ((s.task_sets.map (fun ts => (ru ts.1, mu ts.2))).map (fun ts =>
        ts.2.get_log_prior + ts.2.get_log_likelihood + ts.1.get_log_likelihood))
      (by simp [h1, h2])
    rw [List.map_map] at hr
    exact ⟨⟨s.task_sets.map (fun ts => (ru ts.1, mu ts.2)), r⟩,
      by simp [FlatControlAgent.update, hr], by simp [h1], by simp [hlen, h2]⟩
  · intro s r m c hs
    simp [FlatControlAgent.augment_assignments, hs]
  · intro r c hk
    show dinsert r.assignment c c = r.assignment ++ [(c, c)]
    exact dinsert_of_not_mem c hk
  · intro r c hk hv
    show (dvalues (dinsert r.assignment c c)).count c = 1
    rw [dinsert_of_not_mem c hk, dvalues_append, List.count_append,
      List.count_eq_zero_of_not_mem hv]
    simp [dvalues]
  · intro m c hk hv
    show (dvalues (dinsert m.assignment c c)).count c = 1
    rw [dinsert_of_not_mem c hk, dvalues_append, List.count_append,
      List.count_eq_zero_of_not_mem hv]
    simp [dvalues]

/-- C9, witness: augmenting the freshly constructed flat agent with context 0
gives the one-element population whose single pair assigns context 0 to
cluster 0. -/
theorem flat_population_size_one_witness :
    FlatControlAgent.augment_assignments (FlatControlAgent.init 0 0 0 0) 0 =
      some ⟨[(⟨[(0, 0)], 0, 0⟩, ⟨[(0, 0)], 0, 0⟩)], [1]⟩ :=
  (flat_population_size_one.2.2.2.1 (FlatControlAgent.init 0 0 0 0)
    ⟨[], 0, 0⟩ ⟨[], 0, 0⟩ 0 rfl).trans (by rfl)

/-! ### C8: the generate loop fires prune-then-augment once per context -/

lemma genStep_eq (gs : GenState) (t c' : ℕ) :
    genStep gs (t, c') =
      if gs.step_counter t + 1 = 1 then
        (if gs.times_seen_ctx c' + 1 = 1 then
          (⟨fun i => if i = t then gs.step_counter i + 1 else gs.step_counter i,
            fun i => if i = c' then gs.times_seen_ctx i + 1 else gs.times_seen_ctx i⟩,
           [Event.prune, Event.augment c', Event.select c', Event.update])
        else
          (⟨fun i => if i = t then gs.step_counter i + 1 else gs.step_counter i,
            fun i => if i = c' then gs.times_seen_ctx i + 1 else gs.times_seen_ctx i⟩,
           [Event.select c', Event.update]))
      else
        (⟨fun i => if i = t then gs.step_counter i + 1 else gs.step_counter i,
          gs.times_seen_ctx⟩, [Event.select c', Event.update]) := by
  unfold genStep
  simp

lemma genTraceAux_augment_count (c : ℕ) (steps : List (ℕ × ℕ)) :
    ∀ gs : GenState, (genTraceAux gs steps).count (Event.augment c) ≤
      if gs.times_seen_ctx c = 0 then 1 else 0 := by
  induction steps with
  | nil =>
    intro gs
    have h : genTraceAux gs [] = [] := rfl
    rw [h]
    simp
  | cons s rest ih =>
    intro gs
    obtain ⟨t, c'⟩ := s
    have hsplit : genTraceAux gs ((t, c') :: rest) =
        (genStep gs (t, c')).2 ++ genTraceAux (genStep gs (t, c')).1 rest := rfl
    rw [hsplit, List.count_append, genStep_eq]
    by_cases h1 : gs.step_counter t + 1 = 1
    · by_cases h2 : gs.times_seen_ctx c' + 1 = 1
      · rw [if_pos h1, if_pos h2]
        have hih := ih ⟨fun i => if i = t then gs.step_counter i + 1
            else gs.step_counter i,
          fun i => if i = c' then gs.times_seen_ctx i + 1 else gs.times_seen_ctx i⟩
        by_cases hc : c = c'
        · subst hc
          have hts0 : gs.times_seen_ctx c = 0 := by omega
          have hblock : ([Event.prune, Event.augment c, Event.select c,
              Event.update]).count (Event.augment c) = 1 := by
            simp [List.count_cons]
          have htail : (genTraceAux ⟨fun i => if i = t then gs.step_counter i + 1
                else gs.step_counter i,
              fun i => if i = c then gs.times_seen_ctx i + 1
                else gs.times_seen_ctx i⟩ rest).count (Event.augment c) = 0 := by
            have hne : ¬ ((if c = c then gs.times_seen_ctx c + 1
                else gs.times_seen_ctx c) = 0) := by simp
            simpa [hne] using hih
          rw [hblock, htail, if_pos hts0]
        · have hblock : ([Event.prune, Event.augment c', Event.select c',
              Event.update]).count (Event.augment c) = 0 := by
            simp [List.count_cons, hc, fun h : c' = c => hc h.symm]
          have hts : (if c = c' then gs.times_seen_ctx c + 1
              else gs.times_seen_ctx c) = gs.times_seen_ctx c := by simp [hc]
          rw [hblock]
          simpa [hts] using hih
      · rw [if_pos h1, if_neg h2]
        have hih := ih ⟨fun i => if i = t then gs.step_counter i + 1
            else gs.step_counter i,
          fun i => if i = c' then gs.times_seen_ctx i + 1 else gs.times_seen_ctx i⟩
        have hblock : ([Event.select c', Event.update]).count (Event.augment c) = 0 := by
          simp [List.count_cons]
        rw [hblock]
        by_cases hc : c = c'
        · subst hc
          have hne0 : gs.times_seen_ctx c ≠ 0 := by omega
          have hle : (genTraceAux ⟨fun i => if i = t then gs.step_counter i + 1
                else gs.step_counter i,
              fun i => if i = c then gs.times_seen_ctx i + 1
                else gs.times_seen_ctx i⟩ rest).count (Event.augment c) ≤ 0 := by
            simpa using hih
          simpa [hne0] using hle
        · have hts : (if c = c' then gs.times_seen_ctx c + 1
              else gs.times_seen_ctx c) = gs.times_seen_ctx c := by simp [hc]
          simpa [hts] using hih
    · rw [if_neg h1]
      have hih := ih ⟨fun i => if i = t then gs.step_counter i + 1
          else gs.step_counter i, gs.times_seen_ctx⟩
      have hblock : ([Event.select c', Event.update]).count (Event.augment c) = 0 := by
        simp [List.count_cons]
      rw [hblock]
      simpa using hih

/-- Every occurrence of `prune` in an event trace is immediately followed by
`augment c` and then `select c` for one context `c`. -/
def PruneAdj : List Event → Prop
  | [] => True
  | Event.prune :: rest =>
    (match rest with
      | Event.augment c :: Event.select c' :: _ => c = c'
      | _ => False) ∧ PruneAdj rest
  | _ :: rest => PruneAdj rest

lemma pruneAdj_trace (steps : List (ℕ × ℕ)) :
    ∀ gs : GenState, PruneAdj (genTraceAux gs steps) := by
  induction steps with
  | nil =>
    intro gs
    exact trivial
  | cons s rest ih =>
    intro gs
    obtain ⟨t, c'⟩ := s
    have hsplit : genTraceAux gs ((t, c') :: rest) =
        (genStep gs (t, c')).2 ++ genTraceAux (genStep gs (t, c')).1 rest := rfl
    rw [hsplit, genStep_eq]
    by_cases h1 : gs.step_counter t + 1 = 1
    · by_cases h2 : gs.times_seen_ctx c' + 1 = 1
      · rw [if_pos h1, if_pos h2]
        exact ⟨rfl, ih _⟩
      · rw [if_pos h1, if_neg h2]
        exact ih _
    · rw [if_neg h1]
      exact ih _

/-- C8.  Over any whole run of the generate loop: each context's augmentation
fires at most once; every prune is immediately followed by an augmentation
and then by the action selection for that same context; and once a context
has been counted as seen, no later step of the run augments it again. -/
theorem generate_prune_augment_once_per_context :
    (∀ (steps : List (ℕ × ℕ)) (c : ℕ),
      (generateTrace steps).count (Event.augment c) ≤ 1) ∧
    (∀ steps : List (ℕ × ℕ), PruneAdj (generateTrace steps)) ∧
    (∀ (gs : GenState) (steps : List (ℕ × ℕ)) (c : ℕ), gs.times_seen_ctx c ≠ 0 →
      (genTraceAux gs steps).count (Event.augment c) = 0) := by
  refine ⟨?_, ?_, ?_⟩
  · intro steps c
    have h := genTraceAux_augment_count c steps ⟨fun _ => 0, fun _ => 0⟩
    calc (generateTrace steps).count (Event.augment c) ≤
        if (0 : ℕ) = 0 then 1 else 0 := h
      _ ≤ 1 := by simp
  · intro steps
    exact pruneAdj_trace steps ⟨fun _ => 0, fun _ => 0⟩
  · intro gs steps c hgs
    have h := genTraceAux_augment_count c steps gs
    rw [if_neg hgs] at h
    omega

/-- C8, witness: a run revisiting context 5 in three trials augments it only
once, with the prune–augment–select block intact; a run whose counters
already record context 5 as seen never augments it. -/
theorem generate_prune_augment_once_witness :
    (generateTrace [(0, 5), (0, 5), (1, 5), (2, 7)]).count (Event.augment 5) = 1 ∧
    PruneAdj (generateTrace [(0, 5), (0, 5), (1, 5), (2, 7)]) ∧
    (genTraceAux ⟨fun _ => 0, fun _ => 1⟩ [(0, 5)]).count (Event.augment 5) = 0 := by
  refine ⟨by decide, generate_prune_augment_once_per_context.2.1 _,
    generate_prune_augment_once_per_context.2.2 ⟨fun _ => 0, fun _ => 1⟩ [(0, 5)] 5
      (by decide)⟩

